import Mathlib

/-!
Shallow embedding of the per-worker CDCL engine of CryptoMiniSat
(`Solver/CommandControl.cpp`) and of `Simplifier::subset`
(`Solver/Simplifier.h`), together with theorems checking the
natural-language specification against the code.
-/

namespace CryptoMS

/-- Three-valued assignment value (`lbool` of the source). -/
inductive Lbool
| ltrue
| lfalse
| lundef
deriving DecidableEq, Repr

/-- A literal: a variable paired with a sign bit.  The source packs the
sign into bit 0 of an integer; `toInt` below reproduces that packing. -/
structure Lit where
  var : Nat
  sign : Bool
deriving DecidableEq, Repr

/-- The packed integer encoding of a literal (`Lit::toInt`). -/
def Lit.toInt (l : Lit) : Nat := 2 * l.var + (if l.sign then 1 else 0)

/-- Literal complement (`operator~`, XOR of bit 0). -/
def Lit.neg (l : Lit) : Lit := ⟨l.var, !l.sign⟩

/-- Default literal, used only for out-of-range list reads. -/
def dLit : Lit := ⟨0, false⟩

/-- Reason attribution of an assigned variable (`PropBy` of the source):
no reason, binary clause, tertiary clause, or a long clause given by an
allocator offset together with the recorded watch index. -/
inductive PropBy
| nullC
| bin (other : Lit)
| tri (other1 other2 : Lit)
| longCl (offset : Nat) (watchNum : Nat)
deriving DecidableEq, Repr

/-- Per-variable data (`VarData`): decision level and reason. -/
structure VarData where
  level : Nat
  reason : PropBy
deriving DecidableEq, Repr

/-- A watch-list entry (`Watched`). -/
inductive Watched
| bin (other : Lit) (learnt : Bool)
| tri (other1 other2 : Lit)
| longW (offset : Nat) (blocker : Lit)
deriving DecidableEq, Repr

/-- The per-worker solver state: the fields of `CommandControl` (and of
its `Solver` base) that the verified operations read or write.  Clause
storage is the allocator map `clauses : offset → literal list`; the
implication cache and the watch lists are indexed by `Lit.toInt`. -/
structure SState where
  trail : List Lit
  trail_lim : List Nat
  assigns : Nat → Lbool
  varData : Nat → VarData
  qhead : Nat
  order_heap : List Nat
  decision_var : Nat → Bool
  polarity : Nat → Bool
  assumptions : List Lit
  conflict : List Lit
  numConflicts : Nat
  implCache : Nat → List Lit
  watches : Nat → List Watched
  clauses : Nat → List Lit

/-- `decisionLevel()` is the size of `trail_lim`. -/
def decisionLevel (s : SState) : Nat := s.trail_lim.length

/-- Modelled from the spec: `Solver::value(Lit)` is not under `src/`;
per the data model, the value of a literal is the variable's assignment
XOR-ed with the sign. -/
def value (s : SState) (p : Lit) : Lbool :=
  match s.assigns p.var with
  | .lundef => .lundef
  | .ltrue => if p.sign then .lfalse else .ltrue
  | .lfalse => if p.sign then .ltrue else .lfalse

/-- Pointwise update of a `Nat`-indexed boolean map (a `seen[]` write). -/
def seenSet (sn : Nat → Bool) (i : Nat) (b : Bool) : Nat → Bool :=
  fun x => if x = i then b else sn x

/-- `CommandControl::insertVarOrder`: insert a variable into the order
heap when it is a decision variable and not already in the heap. -/
def insertVarOrder (s : SState) (x : Nat) : SState :=
  if x ∉ s.order_heap ∧ s.decision_var x = true then
    { s with order_heap := s.order_heap ++ [x] }
  else s

/-- One iteration of the undo loop of `cancelUntil`: set the variable's
assignment to Undef and call `insertVarOrder`.  (The source touches
neither the reason nor the saved polarity here.) -/
def undoOne (st : SState) (l : Lit) : SState :=
  insertVarOrder
    { st with assigns := fun v => if v = l.var then Lbool.lundef else st.assigns v }
    l.var

/-- `CommandControl::cancelUntil(level)`: when `decisionLevel() > level`,
walk the trail downwards to `trail_lim[level]` undoing each assignment,
then set `qhead` to `trail_lim[level]` and truncate `trail` and
`trail_lim`. -/
def cancelUntil (s : SState) (level : Nat) : SState :=
  if decisionLevel s > level then
    let lim := s.trail_lim.getD level 0
    let s1 := ((s.trail.drop lim).reverse).foldl undoOne s
    { s1 with
      qhead := lim
      trail := s1.trail.take lim
      trail_lim := s1.trail_lim.take level }
  else s

/-- `Solver::newDecisionLevel()`: push the current trail size. -/
def newDecisionLevel (s : SState) : SState :=
  { s with trail_lim := s.trail_lim ++ [s.trail.length] }

/-- Modelled from the spec: `Solver::enqueue` is not under `src/`; per
the data model it appends the literal to the trail and records its
value, level and reason. -/
def enqueue (s : SState) (p : Lit) (reason : PropBy) : SState :=
  { s with
    trail := s.trail ++ [p]
    assigns := fun v =>
      if v = p.var then (if p.sign then Lbool.lfalse else Lbool.ltrue) else s.assigns v
    varData := fun v =>
      if v = p.var then ⟨decisionLevel s, reason⟩ else s.varData v }

theorem undoFold_varData (ls : List Lit) (st : SState) :
    (ls.foldl undoOne st).varData = st.varData := by
  induction ls generalizing st with
  | nil => rfl
  | cons l t ih =>
    rw [List.foldl_cons, ih]
    unfold undoOne insertVarOrder
    split <;> rfl

theorem undoFold_polarity (ls : List Lit) (st : SState) :
    (ls.foldl undoOne st).polarity = st.polarity := by
  induction ls generalizing st with
  | nil => rfl
  | cons l t ih =>
    rw [List.foldl_cons, ih]
    unfold undoOne insertVarOrder
    split <;> rfl

theorem undoFold_trail (ls : List Lit) (st : SState) :
    (ls.foldl undoOne st).trail = st.trail := by
  induction ls generalizing st with
  | nil => rfl
  | cons l t ih =>
    rw [List.foldl_cons, ih]
    unfold undoOne insertVarOrder
    split <;> rfl

theorem undoFold_trail_lim (ls : List Lit) (st : SState) :
    (ls.foldl undoOne st).trail_lim = st.trail_lim := by
  induction ls generalizing st with
  | nil => rfl
  | cons l t ih =>
    rw [List.foldl_cons, ih]
    unfold undoOne insertVarOrder
    split <;> rfl

theorem undoFold_decision_var (ls : List Lit) (st : SState) :
    (ls.foldl undoOne st).decision_var = st.decision_var := by
  induction ls generalizing st with
  | nil => rfl
  | cons l t ih =>
    rw [List.foldl_cons, ih]
    unfold undoOne insertVarOrder
    split <;> rfl

theorem undoFold_assigns (ls : List Lit) (st : SState) (v : Nat) :
    (ls.foldl undoOne st).assigns v =
      if ls.any (fun l => l.var = v) then Lbool.lundef else st.assigns v := by
  induction ls generalizing st with
  | nil => simp
  | cons l t ih =>
    rw [List.foldl_cons, ih]
    by_cases hv : l.var = v
    · subst hv
      have hA : (undoOne st l).assigns l.var = Lbool.lundef := by
        unfold undoOne insertVarOrder
        split <;> simp
      simp [hA]
    · have hv2 : ¬ (v = l.var) := fun h => hv h.symm
      have hA : (undoOne st l).assigns v = st.assigns v := by
        unfold undoOne insertVarOrder
        split <;> simp [hv2]
      simp [hA, hv]

theorem undoFold_heap_mono (ls : List Lit) (st : SState) (v : Nat)
    (h : v ∈ st.order_heap) : v ∈ (ls.foldl undoOne st).order_heap := by
  induction ls generalizing st with
  | nil => exact h
  | cons l t ih =>
    rw [List.foldl_cons]
    apply ih
    unfold undoOne insertVarOrder
    split
    · simpa using Or.inl h
    · exact h

theorem undoFold_heap_mem (ls : List Lit) (st : SState) (v : Nat)
    (hd : st.decision_var v = true)
    (hv : v ∈ ls.map Lit.var) : v ∈ (ls.foldl undoOne st).order_heap := by
  induction ls generalizing st with
  | nil => simp at hv
  | cons l t ih =>
    rw [List.foldl_cons]
    by_cases hlv : l.var = v
    · -- v is this literal's variable: after undoOne it is in the heap
      have hmem : v ∈ (undoOne st l).order_heap := by
        unfold undoOne insertVarOrder
        split
        · next hcond => simp [hlv]
        · next hcond =>
          push_neg at hcond
          have hin : l.var ∈ st.order_heap := by
            by_contra hab
            have := hcond (by simpa using hab)
            rw [hlv] at this
            simp [hd] at this
          simpa [hlv] using hin
      exact undoFold_heap_mono t _ v hmem
    · have hd2 : (undoOne st l).decision_var v = true := by
        unfold undoOne insertVarOrder
        split <;> simpa using hd
      have hv2 : v ∈ t.map Lit.var := by
        rcases List.mem_map.mp hv with ⟨w, hw, hwv⟩
        cases hw with
        | head => exact absurd hwv hlv
        | tail b hw2 => exact List.mem_map.mpr ⟨w, hw2, hwv⟩
      exact ih _ hd2 hv2

theorem cancelUntil_fields (s : SState) (lvl : Nat) (h : lvl < decisionLevel s) :
    (cancelUntil s lvl).trail = s.trail.take (s.trail_lim.getD lvl 0) ∧
    (cancelUntil s lvl).trail_lim = s.trail_lim.take lvl ∧
    (cancelUntil s lvl).qhead = s.trail_lim.getD lvl 0 ∧
    (cancelUntil s lvl).varData = s.varData ∧
    (cancelUntil s lvl).polarity = s.polarity := by
  unfold cancelUntil
  rw [if_pos h]
  refine ⟨?_, ?_, rfl, ?_, ?_⟩
  · show (_ : List Lit).take _ = _
    rw [undoFold_trail]
  · show (_ : List Nat).take _ = _
    rw [undoFold_trail_lim]
  · exact undoFold_varData _ _
  · exact undoFold_polarity _ _

theorem cancelUntil_assigns (s : SState) (lvl : Nat) (h : lvl < decisionLevel s) (v : Nat) :
    (cancelUntil s lvl).assigns v =
      if (s.trail.drop (s.trail_lim.getD lvl 0)).any (fun l => l.var = v)
      then Lbool.lundef else s.assigns v := by
  unfold cancelUntil
  rw [if_pos h]
  show (((s.trail.drop _).reverse).foldl undoOne s).assigns v = _
  rw [undoFold_assigns]
  simp [List.any_reverse]

theorem cancelUntil_heap (s : SState) (lvl : Nat) (h : lvl < decisionLevel s) (v : Nat)
    (hd : s.decision_var v = true)
    (hv : v ∈ (s.trail.drop (s.trail_lim.getD lvl 0)).map Lit.var) :
    v ∈ (cancelUntil s lvl).order_heap := by
  unfold cancelUntil
  rw [if_pos h]
  show v ∈ (((s.trail.drop _).reverse).foldl undoOne s).order_heap
  exact undoFold_heap_mem _ s v hd (by simpa [List.map_reverse] using hv)

theorem undoOne_heap_iff (st : SState) (l : Lit) (v : Nat) :
    v ∈ (undoOne st l).order_heap ↔
      v ∈ st.order_heap ∨ (v = l.var ∧ st.decision_var v = true) := by
  unfold undoOne insertVarOrder
  split
  · next hcond =>
    show v ∈ st.order_heap ++ [l.var] ↔ _
    rw [List.mem_append, List.mem_singleton]
    constructor
    · rintro (hm | hm)
      · exact Or.inl hm
      · subst hm
        exact Or.inr ⟨rfl, hcond.2⟩
    · rintro (hm | hm)
      · exact Or.inl hm
      · exact Or.inr hm.1
  · next hcond =>
    show v ∈ st.order_heap ↔ _
    constructor
    · exact Or.inl
    · rintro (hm | ⟨hv, hd⟩)
      · exact hm
      · subst hv
        by_contra hab
        exact hcond ⟨hab, hd⟩

theorem undoFold_heap_iff : ∀ (ls : List Lit) (st : SState) (v : Nat),
    v ∈ (ls.foldl undoOne st).order_heap ↔
      v ∈ st.order_heap ∨ (v ∈ ls.map Lit.var ∧ st.decision_var v = true) := by
  intro ls
  induction ls with
  | nil => intro st v; simp
  | cons l t ih =>
    intro st v
    rw [List.foldl_cons, ih, undoOne_heap_iff]
    have hdv : (undoOne st l).decision_var = st.decision_var := by
      unfold undoOne insertVarOrder
      split <;> rfl
    rw [hdv, List.map_cons, List.mem_cons]
    constructor
    · rintro ((hm | ⟨hv, hd⟩) | ⟨hm, hd⟩)
      · exact Or.inl hm
      · exact Or.inr ⟨Or.inl hv, hd⟩
      · exact Or.inr ⟨Or.inr hm, hd⟩
    · rintro (hm | ⟨hv | hm, hd⟩)
      · exact Or.inl (Or.inl hm)
      · exact Or.inl (Or.inr ⟨hv, hd⟩)
      · exact Or.inr ⟨hm, hd⟩

theorem cancelUntil_heap_iff (s : SState) (lvl : Nat) (h : lvl < decisionLevel s) (v : Nat) :
    v ∈ (cancelUntil s lvl).order_heap ↔
      v ∈ s.order_heap ∨
        (v ∈ (s.trail.drop (s.trail_lim.getD lvl 0)).map Lit.var ∧
         s.decision_var v = true) := by
  unfold cancelUntil
  rw [if_pos h]
  show v ∈ (((s.trail.drop (s.trail_lim.getD lvl 0)).reverse).foldl undoOne s).order_heap ↔ _
  rw [undoFold_heap_iff, List.map_reverse, List.mem_reverse]

/-- The spec's description of `cancelUntil(lvl)` (section 4.2), written
one-to-one from its words: every assignment above `trail_lim[lvl]` is
undone, the undone variable's value becomes Undef, its reason is
cleared, it is reinserted into the order heap, its saved polarity is
updated to the sign it just had, and the trail, `trail_lim` and `qhead`
are truncated/reset. -/
def cancelUntilClaim (s : SState) (lvl : Nat) : Prop :=
  lvl < decisionLevel s →
    ((∀ l ∈ s.trail.drop (s.trail_lim.getD lvl 0),
        (cancelUntil s lvl).assigns l.var = Lbool.lundef ∧
        ((cancelUntil s lvl).varData l.var).reason = PropBy.nullC ∧
        l.var ∈ (cancelUntil s lvl).order_heap ∧
        (cancelUntil s lvl).polarity l.var = l.sign) ∧
     (cancelUntil s lvl).trail = s.trail.take (s.trail_lim.getD lvl 0) ∧
     (cancelUntil s lvl).trail_lim = s.trail_lim.take lvl ∧
     (cancelUntil s lvl).qhead = s.trail_lim.getD lvl 0)

/-- A concrete reachable-shaped state: variable 0 is the level-1
decision, variable 1 was propagated at level 1 by a binary clause and is
not a decision variable.  -/
def sC1 : SState :=
  { trail := [⟨0, false⟩, ⟨1, true⟩]
    trail_lim := [0]
    assigns := fun v => if v = 0 then Lbool.ltrue else if v = 1 then Lbool.lfalse else Lbool.lundef
    varData := fun v =>
      if v = 0 then ⟨1, PropBy.nullC⟩
      else if v = 1 then ⟨1, PropBy.bin ⟨0, true⟩⟩
      else ⟨0, PropBy.nullC⟩
    qhead := 2
    order_heap := []
    decision_var := fun v => v == 0
    polarity := fun _ => false
    assumptions := []
    conflict := []
    numConflicts := 0
    implCache := fun _ => []
    watches := fun _ => []
    clauses := fun _ => [] }

/-- Claim C1, counterexample: at `sC1`, `cancelUntil 0` leaves variable
1's binary reason in place, does not put the non-decision variable 1
into the order heap, and does not update its saved polarity — so the
claim as stated is false on the code. -/
theorem c1_cancelUntil_counterexample : ¬ cancelUntilClaim sC1 0 := by
  unfold cancelUntilClaim
  decide

/-- Claim C1 (amended): for every target level `lvl` strictly below the
current decision level, `cancelUntil(lvl)` sets every variable assigned
at a trail position at or above `trail_lim[lvl]` to Undef and leaves the
other assignments alone; order-heap membership afterwards holds exactly
for the variables that were already in the heap before plus the undone
variables that are decision variables — in particular an undone
non-decision variable not already in the heap is **not** inserted; the
reasons (`varData`) and the saved polarities are left unchanged; the
trail is truncated to `trail_lim[lvl]`, `trail_lim` is truncated to
`lvl` entries and `qhead` is set to `trail_lim[lvl]`. -/
theorem c1_cancelUntil_amended (s : SState) (lvl : Nat) (h : lvl < decisionLevel s) :
    (∀ l ∈ s.trail.drop (s.trail_lim.getD lvl 0),
        (cancelUntil s lvl).assigns l.var = Lbool.lundef) ∧
    (∀ v, v ∉ (s.trail.drop (s.trail_lim.getD lvl 0)).map Lit.var →
        (cancelUntil s lvl).assigns v = s.assigns v) ∧
    (∀ v, v ∈ (cancelUntil s lvl).order_heap ↔
        v ∈ s.order_heap ∨
          (v ∈ (s.trail.drop (s.trail_lim.getD lvl 0)).map Lit.var ∧
           s.decision_var v = true)) ∧
    (cancelUntil s lvl).varData = s.varData ∧
    (cancelUntil s lvl).polarity = s.polarity ∧
    (cancelUntil s lvl).trail = s.trail.take (s.trail_lim.getD lvl 0) ∧
    (cancelUntil s lvl).trail_lim = s.trail_lim.take lvl ∧
    (cancelUntil s lvl).qhead = s.trail_lim.getD lvl 0 := by
  obtain ⟨ht, hl, hq, hvd, hp⟩ := cancelUntil_fields s lvl h
  refine ⟨?_, ?_, ?_, hvd, hp, ht, hl, hq⟩
  · intro l hm
    rw [cancelUntil_assigns s lvl h]
    rw [if_pos]
    rw [List.any_eq_true]
    exact ⟨l, hm, by simp⟩
  · intro v hv
    rw [cancelUntil_assigns s lvl h]
    rw [if_neg]
    intro hany
    rw [List.any_eq_true] at hany
    obtain ⟨l, hm, hlv⟩ := hany
    exact hv (List.mem_map.mpr ⟨l, hm, by simpa using hlv⟩)
  · intro v
    exact cancelUntil_heap_iff s lvl h v

/-- Witness for the amended C1 theorem at the concrete state `sC1`,
including the heap characterization at the undone non-decision
variable 1. -/
theorem c1_cancelUntil_amended_witness :
    (cancelUntil sC1 0).varData = sC1.varData ∧
    (cancelUntil sC1 0).trail = sC1.trail.take (sC1.trail_lim.getD 0 0) ∧
    ((1 : Nat) ∈ (cancelUntil sC1 0).order_heap ↔
      (1 : Nat) ∈ sC1.order_heap ∨
        ((1 : Nat) ∈ (sC1.trail.drop (sC1.trail_lim.getD 0 0)).map Lit.var ∧
         sC1.decision_var 1 = true)) := by
  have h := c1_cancelUntil_amended sC1 0 (by decide)
  exact ⟨h.2.2.2.1, h.2.2.2.2.2.1, h.2.2.1 1⟩

/-- `analyzeFinal` helper: mark one literal's variable as seen when its
level is positive. -/
def afMark1 (s : SState) (q : Lit) (sn : Nat → Bool) : Nat → Bool :=
  if (s.varData q.var).level > 0 then seenSet sn q.var true else sn

/-- `analyzeFinal` helper: mark the non-pivot literals of a reason.  For
a tertiary reason the source marks `getOtherLit2` and then falls through
to the binary case marking `getOtherLit`; for a long clause it marks the
literals at positions 1 and up. -/
def afMarkReason (s : SState) (r : PropBy) (sn : Nat → Bool) : Nat → Bool :=
  match r with
  | .nullC => sn
  | .bin o => afMark1 s o sn
  | .tri o1 o2 => afMark1 s o1 (afMark1 s o2 sn)
  | .longCl off _ => ((s.clauses off).drop 1).foldl (fun a q => afMark1 s q a) sn

/-- The backward trail walk of `CommandControl::analyzeFinal`: the trail
is traversed from the top down to `trail_lim[0]`; an unseen variable
stops the walk; a seen variable with no reason contributes the negation
of its trail literal to the conflict, otherwise its reason's literals
are marked; the variable's own seen bit is then cleared. -/
def afLoop (s : SState) : List Lit → (Nat → Bool) → List Lit → List Lit
| [], _, out => out
| l :: rest, sn, out =>
  if sn l.var = false then out
  else
    match (s.varData l.var).reason with
    | .nullC => afLoop s rest (seenSet sn l.var false) (out ++ [l.neg])
    | r => afLoop s rest (seenSet (afMarkReason s r sn) l.var false) out

/-- `CommandControl::analyzeFinal(p, out_conflict)`: `out_conflict`
starts as `[p]`; at decision level 0 nothing more happens; otherwise the
backward walk runs with `seen[p.var] = 1`. -/
def analyzeFinal (s : SState) (p : Lit) : List Lit :=
  if decisionLevel s = 0 then [p]
  else
    afLoop s ((s.trail.drop (s.trail_lim.getD 0 0)).reverse)
      (seenSet (fun _ => false) p.var true) [p]

/-- Outcome of the assumption loop at the head of
`CommandControl::new_decision`: either the function returned `l_False`
(conflicting assumption), or the loop finished with an optional branch
literal. -/
inductive NDOut
| retFalse (s : SState)
| cont (next : Option Lit) (s : SState)

/-- The state carried by an `NDOut`. -/
def ndOutState : NDOut → SState
| .retFalse s => s
| .cont _ s => s

/-- The assumption loop of `CommandControl::new_decision`, with explicit
fuel (the source loop terminates because each iteration that continues
pushes a decision level): while `decisionLevel() < assumptions.size()`,
look at the assumption at index `decisionLevel()`; if True push a dummy
level; if False set `conflict` via `analyzeFinal(~p)` and return
`l_False`; if Undef it becomes the branch literal. -/
def ndLoop : Nat → SState → NDOut
| 0, s => .cont none s
| fuel + 1, s =>
  if decisionLevel s < s.assumptions.length then
    match value s (s.assumptions.getD (decisionLevel s) dLit) with
    | .ltrue => ndLoop fuel (newDecisionLevel s)
    | .lfalse =>
      .retFalse { s with
        conflict := analyzeFinal s (s.assumptions.getD (decisionLevel s) dLit).neg }
    | .lundef => .cont (some (s.assumptions.getD (decisionLevel s) dLit)) s
  else .cont none s

/-- `CommandControl::new_decision`.  The random/VSIDS branch-literal
choice (`pickBranchLit`, which draws from the Mersenne twister) is
passed in as the function `pick`; `pick = none` signals SAT
(`l_True`). -/
def new_decision (pick : SState → Option Lit) (s : SState) : Lbool × SState :=
  match ndLoop (s.assumptions.length + 1) s with
  | .retFalse s1 => (.lfalse, s1)
  | .cont (some p) s1 => (.lundef, enqueue (newDecisionLevel s1) p .nullC)
  | .cont none s1 =>
    match pick s1 with
    | none => (.ltrue, s1)
    | some nxt => (.lundef, enqueue (newDecisionLevel s1) nxt .nullC)

/-- The trail-limit invariant with non-strict order: `trail_lim` is
non-decreasing, bounded by the trail length and of length
`decisionLevel()`. -/
def trailLimInv (s : SState) : Prop :=
  List.Pairwise (· ≤ ·) s.trail_lim ∧
  (∀ x ∈ s.trail_lim, x ≤ s.trail.length) ∧
  decisionLevel s = s.trail_lim.length

theorem sorted_take_le : ∀ (l : List Nat) (n x : Nat), List.Pairwise (· ≤ ·) l →
    n < l.length → x ∈ l.take n → x ≤ l.getD n 0 := by
  intro l
  induction l with
  | nil => intro n x _ hn _; simp at hn
  | cons a t ih =>
    intro n x hs hn hx
    cases n with
    | zero => simp at hx
    | succ m =>
      rw [List.take_succ_cons] at hx
      have hgd : (a :: t).getD (m + 1) 0 = t.getD m 0 := rfl
      rw [hgd]
      have hm : m < t.length := by simpa using hn
      rcases List.mem_cons.mp hx with hx | hx
      · subst hx
        have hmem : t.getD m 0 ∈ t := by
          rw [List.getD_eq_getElem t 0 hm]
          exact List.getElem_mem hm
        exact (List.pairwise_cons.mp hs).1 _ hmem
      · exact ih m x (List.pairwise_cons.mp hs).2 hm hx

theorem trailLimInv_cancelUntil (s : SState) (lvl : Nat) (h : trailLimInv s) :
    trailLimInv (cancelUntil s lvl) := by
  obtain ⟨hpw, hb, _⟩ := h
  by_cases hc : decisionLevel s > lvl
  · obtain ⟨ht, hl, _, _, _⟩ := cancelUntil_fields s lvl hc
    have hlvl : lvl < s.trail_lim.length := hc
    have hlim_mem : s.trail_lim.getD lvl 0 ∈ s.trail_lim := by
      rw [List.getD_eq_getElem s.trail_lim 0 hlvl]
      exact List.getElem_mem hlvl
    have hlim_le : s.trail_lim.getD lvl 0 ≤ s.trail.length := hb _ hlim_mem
    refine ⟨?_, ?_, rfl⟩
    · rw [hl]
      exact hpw.sublist (List.take_sublist _ _)
    · intro x hx
      rw [hl] at hx
      rw [ht, List.length_take]
      have hxle : x ≤ s.trail_lim.getD lvl 0 := sorted_take_le s.trail_lim lvl x hpw hlvl hx
      exact le_min hxle (le_trans hxle hlim_le)
  · unfold cancelUntil
    rw [if_neg hc]
    exact ⟨hpw, hb, rfl⟩

theorem trailLimInv_newDecisionLevel (s : SState) (h : trailLimInv s) :
    trailLimInv (newDecisionLevel s) := by
  obtain ⟨hpw, hb, _⟩ := h
  refine ⟨?_, ?_, rfl⟩
  · show List.Pairwise _ (s.trail_lim ++ [s.trail.length])
    rw [List.pairwise_append]
    refine ⟨hpw, List.pairwise_singleton _ _, ?_⟩
    intro x hx y hy
    rw [List.mem_singleton] at hy
    subst hy
    exact hb x hx
  · intro x hx
    rcases List.mem_append.mp hx with hx | hx
    · exact hb x hx
    · rw [List.mem_singleton] at hx
      subst hx
      exact le_refl _

theorem trailLimInv_enqueue (s : SState) (p : Lit) (r : PropBy) (h : trailLimInv s) :
    trailLimInv (enqueue s p r) := by
  obtain ⟨hpw, hb, _⟩ := h
  refine ⟨hpw, ?_, rfl⟩
  intro x hx
  show x ≤ (s.trail ++ [p]).length
  rw [List.length_append]
  exact le_trans (hb x hx) (Nat.le_add_right _ _)

theorem trailLimInv_ndLoop (fuel : Nat) (s : SState) (h : trailLimInv s) :
    trailLimInv (ndOutState (ndLoop fuel s)) := by
  induction fuel generalizing s with
  | zero => exact h
  | succ f ih =>
    show trailLimInv (ndOutState (ndLoop (f + 1) s))
    rw [ndLoop]
    split
    · split
      · exact ih _ (trailLimInv_newDecisionLevel s h)
      · exact ⟨h.1, h.2.1, h.2.2⟩
      · exact h
    · exact h

theorem trailLimInv_new_decision (pick : SState → Option Lit) (s : SState)
    (h : trailLimInv s) : trailLimInv (new_decision pick s).2 := by
  have hnd := trailLimInv_ndLoop (s.assumptions.length + 1) s h
  unfold new_decision
  split
  · next s1 heq =>
    rw [heq] at hnd
    exact hnd
  · next p s1 heq =>
    rw [heq] at hnd
    exact trailLimInv_enqueue _ _ _ (trailLimInv_newDecisionLevel _ hnd)
  · next s1 heq =>
    rw [heq] at hnd
    split
    · exact hnd
    · exact trailLimInv_enqueue _ _ _ (trailLimInv_newDecisionLevel _ hnd)

/-- A degenerate branch chooser (never used on the paths exercised by
the concrete states below). -/
def pick0 : SState → Option Lit := fun _ => none

/-- A concrete state at decision level 0: variable 0 is True at level 0
and is the first assumption; variable 1 is the second assumption and
still Undef. -/
def sC2 : SState :=
  { trail := [⟨0, false⟩]
    trail_lim := []
    assigns := fun v => if v = 0 then Lbool.ltrue else Lbool.lundef
    varData := fun _ => ⟨0, PropBy.nullC⟩
    qhead := 1
    order_heap := [1]
    decision_var := fun _ => true
    polarity := fun _ => false
    assumptions := [⟨0, false⟩, ⟨1, false⟩]
    conflict := []
    numConflicts := 0
    implCache := fun _ => []
    watches := fun _ => []
    clauses := fun _ => [] }

/-- Claim C2, counterexample: `sC2` satisfies the trail-limit invariant,
yet after `new_decision` consumes the already-True assumption (pushing a
dummy decision level) and then decides on the second assumption, the
trail-limit stack is `[1, 1]` — not strictly increasing. -/
theorem c2_trailLim_counterexample :
    trailLimInv sC2 ∧ ¬ List.Chain' (· < ·) (new_decision pick0 sC2).2.trail_lim := by
  refine ⟨⟨List.Pairwise.nil, ?_, rfl⟩, ?_⟩
  · intro x hx
    simp [sC2] at hx
  · have h : (new_decision pick0 sC2).2.trail_lim = [1, 1] := by decide
    rw [h]
    intro hch
    exact absurd (List.chain'_cons.mp hch).1 (by decide)

/-- Claim C2 (amended): the trail-limit stack is non-decreasing
(`trail_lim[i] ≤ trail_lim[i+1]`, here as full pairwise order), each
entry is bounded by the trail length, and its length equals
`decisionLevel()`; this invariant is preserved by `cancelUntil` and by
`new_decision` — in particular it still holds after `new_decision`
consumes an already-True assumption by pushing a dummy decision level,
where the new entry merely repeats its predecessor. -/
theorem c2_trailLim_amended (pick : SState → Option Lit) (s : SState) (lvl : Nat)
    (h : trailLimInv s) :
    trailLimInv (cancelUntil s lvl) ∧
    trailLimInv (new_decision pick s).2 ∧
    decisionLevel s = s.trail_lim.length :=
  ⟨trailLimInv_cancelUntil s lvl h, trailLimInv_new_decision pick s h, rfl⟩

/-- Witness for the amended C2 theorem at the concrete state `sC2`. -/
theorem c2_trailLim_amended_witness :
    trailLimInv (cancelUntil sC2 0) ∧
    trailLimInv (new_decision pick0 sC2).2 ∧
    decisionLevel sC2 = sC2.trail_lim.length :=
  c2_trailLim_amended pick0 sC2 0 ⟨List.Pairwise.nil, by intro x hx; simp [sC2] at hx, rfl⟩

theorem ndLoop_succ (fuel : Nat) (s : SState) :
    ndLoop (fuel + 1) s =
      if decisionLevel s < s.assumptions.length then
        match value s (s.assumptions.getD (decisionLevel s) dLit) with
        | .ltrue => ndLoop fuel (newDecisionLevel s)
        | .lfalse =>
          .retFalse { s with
            conflict := analyzeFinal s (s.assumptions.getD (decisionLevel s) dLit).neg }
        | .lundef => .cont (some (s.assumptions.getD (decisionLevel s) dLit)) s
      else .cont none s := rfl

theorem ndLoop_fuel_succ : ∀ (fuel : Nat) (s : SState),
    s.assumptions.length - decisionLevel s < fuel →
    ndLoop fuel s = ndLoop (fuel + 1) s := by
  intro fuel
  induction fuel with
  | zero => intro s h; omega
  | succ f ih =>
    intro s h
    by_cases hc : decisionLevel s < s.assumptions.length
    · rw [ndLoop_succ f s, ndLoop_succ (f + 1) s, if_pos hc, if_pos hc]
      cases hv : value s (s.assumptions.getD (decisionLevel s) dLit) with
      | ltrue =>
        show ndLoop f (newDecisionLevel s) = ndLoop (f + 1) (newDecisionLevel s)
        apply ih
        show s.assumptions.length - (s.trail_lim ++ [s.trail.length]).length < f
        rw [List.length_append]
        have hdl : decisionLevel s = s.trail_lim.length := rfl
        simp only [List.length_singleton]
        omega
      | lfalse => rfl
      | lundef => rfl
    · rw [ndLoop_succ f s, ndLoop_succ (f + 1) s, if_neg hc, if_neg hc]

theorem value_enqueue_self (s : SState) (p : Lit) (r : PropBy) :
    value (enqueue s p r) p = Lbool.ltrue := by
  unfold value enqueue
  cases hs : p.sign <;> simp [hs]

/-- Claim C5: whenever `decisionLevel() < |assumptions|`, `new_decision`
takes the assumption at index `decisionLevel()`: if it is True, a dummy
decision level is pushed with no literal enqueued and the loop goes on;
if it is False, `analyzeFinal` is run on its negation to fill the
conflict vector and `l_False` (UNSAT) is returned; if it is Undef, the
assumption itself is enqueued as the branch literal at a new decision
level. -/
theorem c5_new_decision_assumption (pick : SState → Option Lit) (s : SState)
    (h : decisionLevel s < s.assumptions.length) :
    (value s (s.assumptions.getD (decisionLevel s) dLit) = Lbool.ltrue →
       new_decision pick s = new_decision pick (newDecisionLevel s) ∧
       (newDecisionLevel s).trail = s.trail ∧
       (newDecisionLevel s).trail_lim = s.trail_lim ++ [s.trail.length]) ∧
    (value s (s.assumptions.getD (decisionLevel s) dLit) = Lbool.lfalse →
       new_decision pick s =
         (Lbool.lfalse,
          { s with conflict := analyzeFinal s (s.assumptions.getD (decisionLevel s) dLit).neg })) ∧
    (value s (s.assumptions.getD (decisionLevel s) dLit) = Lbool.lundef →
       new_decision pick s =
         (Lbool.lundef,
          enqueue (newDecisionLevel s) (s.assumptions.getD (decisionLevel s) dLit) PropBy.nullC) ∧
       (enqueue (newDecisionLevel s) (s.assumptions.getD (decisionLevel s) dLit)
           PropBy.nullC).trail = s.trail ++ [s.assumptions.getD (decisionLevel s) dLit] ∧
       value (enqueue (newDecisionLevel s) (s.assumptions.getD (decisionLevel s) dLit)
           PropBy.nullC) (s.assumptions.getD (decisionLevel s) dLit) = Lbool.ltrue) := by
  refine ⟨?_, ?_, ?_⟩
  · intro hv
    refine ⟨?_, rfl, rfl⟩
    have h1 : ndLoop (s.assumptions.length + 1) s =
        ndLoop s.assumptions.length (newDecisionLevel s) := by
      rw [ndLoop_succ, if_pos h, hv]
    have h2 : ndLoop s.assumptions.length (newDecisionLevel s) =
        ndLoop (s.assumptions.length + 1) (newDecisionLevel s) := by
      apply ndLoop_fuel_succ
      show s.assumptions.length - (s.trail_lim ++ [s.trail.length]).length <
        s.assumptions.length
      rw [List.length_append]
      have hdl : decisionLevel s = s.trail_lim.length := rfl
      simp only [List.length_singleton]
      omega
    show (match ndLoop (s.assumptions.length + 1) s with
      | NDOut.retFalse s1 => (Lbool.lfalse, s1)
      | NDOut.cont (some p) s1 => (Lbool.lundef, enqueue (newDecisionLevel s1) p PropBy.nullC)
      | NDOut.cont none s1 =>
        match pick s1 with
        | none => (Lbool.ltrue, s1)
        | some nxt => (Lbool.lundef, enqueue (newDecisionLevel s1) nxt PropBy.nullC)) = _
    rw [h1, h2]
    rfl
  · intro hv
    unfold new_decision
    rw [ndLoop_succ, if_pos h, hv]
  · intro hv
    refine ⟨?_, rfl, value_enqueue_self _ _ _⟩
    unfold new_decision
    rw [ndLoop_succ, if_pos h, hv]

/-- Witness for the C5 theorem at the concrete state `sC2`, whose first
assumption is already True. -/
theorem c5_new_decision_assumption_witness :
    new_decision pick0 sC2 = new_decision pick0 (newDecisionLevel sC2) ∧
    (newDecisionLevel sC2).trail = sC2.trail ∧
    (newDecisionLevel sC2).trail_lim = sC2.trail_lim ++ [sC2.trail.length] :=
  (c5_new_decision_assumption pick0 sC2 (by decide)).1 (by decide)

/-- `CommandControl::handle_conflict`: the statistics counter is bumped,
then a conflict at decision level 0 returns `false` immediately — no
clause is analyzed, learned or attached.  The level `> 0` path (analyze,
backjump, attach; it always ends in `return true`) is abstracted by the
function `learn`. -/
def handle_conflict (learn : SState → SState) (s : SState) : Bool × SState :=
  if decisionLevel s = 0 then (false, { s with numConflicts := s.numConflicts + 1 })
  else (true, learn { s with numConflicts := s.numConflicts + 1 })

/-- The conflict arm of the loop body of `CommandControl::search`: when
`handle_conflict` returns false the search returns `l_False`; otherwise
`addOtherClauses` runs, whose failure also returns `l_False`; otherwise
the loop continues (`none`). -/
def searchConflictStep (learn : SState → SState) (addOther : SState → Bool × SState)
    (s : SState) : Option Lbool × SState :=
  match handle_conflict learn s with
  | (false, s1) => (some Lbool.lfalse, s1)
  | (true, s1) =>
    match addOther s1 with
    | (false, s2) => (some Lbool.lfalse, s2)
    | (true, s2) => (none, s2)

/-- Claim C6: a conflict while the decision level is 0 concludes the
solve attempt as UNSAT — `handle_conflict` returns `false` with nothing
changed except the conflict counter (no clause learned, trail and clause
store untouched), and the search step returns `l_False`. -/
theorem c6_conflict_at_level0 (learn : SState → SState) (addOther : SState → Bool × SState)
    (s : SState) (h : decisionLevel s = 0) :
    handle_conflict learn s = (false, { s with numConflicts := s.numConflicts + 1 }) ∧
    ({ s with numConflicts := s.numConflicts + 1 }).trail = s.trail ∧
    ({ s with numConflicts := s.numConflicts + 1 }).trail_lim = s.trail_lim ∧
    ({ s with numConflicts := s.numConflicts + 1 }).assigns = s.assigns ∧
    ({ s with numConflicts := s.numConflicts + 1 }).clauses = s.clauses ∧
    ({ s with numConflicts := s.numConflicts + 1 }).watches = s.watches ∧
    searchConflictStep learn addOther s =
      (some Lbool.lfalse, { s with numConflicts := s.numConflicts + 1 }) := by
  have hh : handle_conflict learn s = (false, { s with numConflicts := s.numConflicts + 1 }) := by
    unfold handle_conflict
    rw [if_pos h]
  refine ⟨hh, rfl, rfl, rfl, rfl, rfl, ?_⟩
  unfold searchConflictStep
  rw [hh]

/-- Witness for the C6 theorem at the concrete level-0 state `sC2`. -/
theorem c6_conflict_at_level0_witness :
    handle_conflict id sC2 =
      (false, { sC2 with numConflicts := sC2.numConflicts + 1 }) ∧
    searchConflictStep id (fun s => (true, s)) sC2 =
      (some Lbool.lfalse, { sC2 with numConflicts := sC2.numConflicts + 1 }) := by
  have h := c6_conflict_at_level0 id (fun s => (true, s)) sC2 rfl
  exact ⟨h.1, h.2.2.2.2.2.2⟩

/-- The unit-import step of `CommandControl::addOtherClauses`: a unit
already True at level 0 is skipped; otherwise the solver cancels to
level 0 and then either enqueues the unit (Undef) or fails with global
UNSAT (`none`, the source's `return false`, its value being False). -/
def addUnit (s : SState) (lit : Lit) : Option SState :=
  if value s lit = Lbool.ltrue ∧ (s.varData lit.var).level = 0 then some s
  else
    let s1 := cancelUntil s 0
    if value s1 lit = Lbool.lundef then some (enqueue s1 lit PropBy.nullC)
    else none

/-- The unit loop of `CommandControl::addOtherClauses` over `unitToAdd`:
stops with `none` (global UNSAT) at the first failing unit. -/
def addOtherClausesUnits : SState → List Lit → Option SState
| s, [] => some s
| s, l :: ls =>
  match addUnit s l with
  | some s1 => addOtherClausesUnits s1 ls
  | none => none

/-- Claim C7: for an imported peer unit `u`, if `u` is already True at
level 0 the state is left unchanged and the loop simply continues;
otherwise the solver first cancels to level 0, and then: if `u` is Undef
there it is enqueued (so it becomes True on the extended trail), while
if `u` is still False the import reports global UNSAT (the whole loop
returns failure). -/
theorem c7_addOtherClauses_unit (s : SState) (u : Lit) (rest : List Lit) :
    (value s u = Lbool.ltrue ∧ (s.varData u.var).level = 0 →
       addUnit s u = some s ∧
       addOtherClausesUnits s (u :: rest) = addOtherClausesUnits s rest) ∧
    (¬ (value s u = Lbool.ltrue ∧ (s.varData u.var).level = 0) →
       (value (cancelUntil s 0) u = Lbool.lundef →
          addUnit s u = some (enqueue (cancelUntil s 0) u PropBy.nullC) ∧
          (enqueue (cancelUntil s 0) u PropBy.nullC).trail = (cancelUntil s 0).trail ++ [u] ∧
          value (enqueue (cancelUntil s 0) u PropBy.nullC) u = Lbool.ltrue) ∧
       (value (cancelUntil s 0) u = Lbool.lfalse →
          addUnit s u = none ∧
          addOtherClausesUnits s (u :: rest) = none)) := by
  constructor
  · intro h
    have ha : addUnit s u = some s := by
      unfold addUnit
      rw [if_pos h]
    refine ⟨ha, ?_⟩
    show (match addUnit s u with
      | some s1 => addOtherClausesUnits s1 rest
      | none => none) = _
    rw [ha]
  · intro h
    constructor
    · intro hu
      refine ⟨?_, rfl, value_enqueue_self _ _ _⟩
      unfold addUnit
      rw [if_neg h]
      show (if value (cancelUntil s 0) u = Lbool.lundef then _ else _) = _
      rw [if_pos hu]
    · intro hu
      have ha : addUnit s u = none := by
        unfold addUnit
        rw [if_neg h]
        show (if value (cancelUntil s 0) u = Lbool.lundef then _ else _) = _
        rw [if_neg (by rw [hu]; intro hc; cases hc)]
      refine ⟨ha, ?_⟩
      show (match addUnit s u with
        | some s1 => addOtherClausesUnits s1 rest
        | none => none) = _
      rw [ha]

/-- Witness for the C7 theorem: at `sC1`, the unit `¬x1` is False at
level 1, so the import cancels to level 0, finds it Undef and enqueues
it. -/
theorem c7_addOtherClauses_unit_witness :
    addUnit sC1 ⟨1, false⟩ = some (enqueue (cancelUntil sC1 0) ⟨1, false⟩ PropBy.nullC) ∧
    (enqueue (cancelUntil sC1 0) ⟨1, false⟩ PropBy.nullC).trail =
      (cancelUntil sC1 0).trail ++ [⟨1, false⟩] ∧
    value (enqueue (cancelUntil sC1 0) ⟨1, false⟩ PropBy.nullC) ⟨1, false⟩ = Lbool.ltrue :=
  ((c7_addOtherClauses_unit sC1 ⟨1, false⟩ []).2 (by decide)).1 (by decide)

/-- Decision level of a literal's variable (`varData[lit.var()].level`). -/
def levOf (s : SState) (l : Lit) : Nat := (s.varData l.var).level

/-- `std::swap(cl[i], cl[j])` on a literal list. -/
def swapIdx (cl : List Lit) (i j : Nat) : List Lit :=
  (cl.set i (cl.getD j dLit)).set j (cl.getD i dLit)

/-- The `max_i` scan of `CommandControl::analyze` (lines 343-346):
starting from index 1, each index `i = 2 .. size-1` replaces the current
candidate when its literal's level is strictly larger. -/
def btMaxIdx (s : SState) (cl : List Lit) : Nat :=
  (List.range' 2 (cl.length - 2)).foldl
    (fun mi i => if levOf s (cl.getD mi dLit) < levOf s (cl.getD i dLit) then i else mi) 1

/-- The backtrack-level computation at the end of
`CommandControl::analyze` (lines 339-349): for a clause of size at most
one the backtrack level is 0; otherwise the literal of maximum level
among positions `1 .. size-1` is swapped into position 1 and its level
is returned. -/
def findBtLevel (s : SState) (cl : List Lit) : List Lit × Nat :=
  if cl.length ≤ 1 then (cl, 0)
  else (swapIdx cl 1 (btMaxIdx s cl),
        levOf s ((swapIdx cl 1 (btMaxIdx s cl)).getD 1 dLit))

theorem maxFold_spec (f : Nat → Nat) : ∀ (l : List Nat) (mi : Nat),
    (l.foldl (fun a i => if f a < f i then i else a) mi = mi ∨
       l.foldl (fun a i => if f a < f i then i else a) mi ∈ l) ∧
    f mi ≤ f (l.foldl (fun a i => if f a < f i then i else a) mi) ∧
    (∀ j ∈ l, f j ≤ f (l.foldl (fun a i => if f a < f i then i else a) mi)) := by
  intro l
  induction l with
  | nil =>
    intro mi
    exact ⟨Or.inl rfl, le_refl _, by intro j hj; cases hj⟩
  | cons a t ih =>
    intro mi
    rw [List.foldl_cons]
    by_cases hc : f mi < f a
    · rw [if_pos hc]
      obtain ⟨h1, h2, h3⟩ := ih a
      refine ⟨?_, le_trans (le_of_lt hc) h2, ?_⟩
      · rcases h1 with h1 | h1
        · exact Or.inr (by rw [h1]; exact List.mem_cons_self a t)
        · exact Or.inr (List.mem_cons_of_mem a h1)
      · intro j hj
        rcases List.mem_cons.mp hj with hj | hj
        · subst hj
          exact h2
        · exact h3 j hj
    · rw [if_neg hc]
      obtain ⟨h1, h2, h3⟩ := ih mi
      refine ⟨?_, h2, ?_⟩
      · rcases h1 with h1 | h1
        · exact Or.inl h1
        · exact Or.inr (List.mem_cons_of_mem a h1)
      · intro j hj
        rcases List.mem_cons.mp hj with hj | hj
        · subst hj
          exact le_trans (le_of_not_lt hc) h2
        · exact h3 j hj

theorem swapIdx_length (cl : List Lit) (i j : Nat) :
    (swapIdx cl i j).length = cl.length := by
  unfold swapIdx
  simp

theorem swapIdx_getD_fst (cl : List Lit) (i j : Nat) (hi : i < cl.length)
    (hj : j < cl.length) : (swapIdx cl i j).getD i dLit = cl.getD j dLit := by
  unfold swapIdx
  rw [List.getD_eq_getElem?_getD]
  by_cases hij : i = j
  · subst hij
    rw [List.getElem?_set_self (by simpa using hi)]
    rfl
  · rw [List.getElem?_set_ne (fun h => hij h.symm),
      List.getElem?_set_self (by simpa using hi)]
    rfl

theorem swapIdx_getD_snd (cl : List Lit) (i j : Nat) (hj : j < cl.length) :
    (swapIdx cl i j).getD j dLit = cl.getD i dLit := by
  unfold swapIdx
  rw [List.getD_eq_getElem?_getD, List.getElem?_set_self (by simpa using hj)]
  rfl

theorem swapIdx_getD_other (cl : List Lit) (i j k : Nat) (hki : k ≠ i) (hkj : k ≠ j) :
    (swapIdx cl i j).getD k dLit = cl.getD k dLit := by
  unfold swapIdx
  rw [List.getD_eq_getElem?_getD,
    List.getElem?_set_ne (fun h => hkj h.symm),
    List.getElem?_set_ne (fun h => hki h.symm),
    List.getD_eq_getElem?_getD]

theorem btMaxIdx_bounds (s : SState) (cl : List Lit) (h2 : 2 ≤ cl.length) :
    1 ≤ btMaxIdx s cl ∧ btMaxIdx s cl < cl.length := by
  obtain ⟨h1, _, _⟩ := maxFold_spec (fun i => levOf s (cl.getD i dLit))
    (List.range' 2 (cl.length - 2)) 1
  rcases h1 with h1 | h1
  · unfold btMaxIdx
    rw [h1]
    omega
  · rw [List.mem_range'] at h1
    obtain ⟨i, hi, hm⟩ := h1
    unfold btMaxIdx
    rw [hm]
    omega

theorem btMaxIdx_max (s : SState) (cl : List Lit) (h2 : 2 ≤ cl.length) (j : Nat)
    (hj1 : 1 ≤ j) (hj : j < cl.length) :
    levOf s (cl.getD j dLit) ≤ levOf s (cl.getD (btMaxIdx s cl) dLit) := by
  obtain ⟨_, hge, hall⟩ := maxFold_spec (fun i => levOf s (cl.getD i dLit))
    (List.range' 2 (cl.length - 2)) 1
  rcases Nat.lt_or_ge j 2 with hj2 | hj2
  · have : j = 1 := by omega
    subst this
    exact hge
  · refine hall j ?_
    rw [List.mem_range']
    exact ⟨j - 2, by omega, by omega⟩

/-- Claim C4: when the learned clause has size at least 2, the literal
left at position 1 by `analyze`'s backtrack-level computation has the
maximum decision level among positions `1 .. size-1`, and the returned
backtrack level is that literal's level; the head literal and the length
are unchanged.  When the clause has size at most 1 the backtrack level
is 0 and the clause is untouched. -/
theorem c4_backjump_level (s : SState) (cl : List Lit) :
    (cl.length ≤ 1 → findBtLevel s cl = (cl, 0)) ∧
    (2 ≤ cl.length →
       (∀ i, 1 ≤ i → i < cl.length →
          levOf s ((findBtLevel s cl).1.getD i dLit) ≤
            levOf s ((findBtLevel s cl).1.getD 1 dLit)) ∧
       (findBtLevel s cl).2 = levOf s ((findBtLevel s cl).1.getD 1 dLit) ∧
       (findBtLevel s cl).1.getD 0 dLit = cl.getD 0 dLit ∧
       (findBtLevel s cl).1.length = cl.length) := by
  constructor
  · intro h
    unfold findBtLevel
    rw [if_pos h]
  · intro h2
    have hne : ¬ (cl.length ≤ 1) := by omega
    have hfb : findBtLevel s cl =
        (swapIdx cl 1 (btMaxIdx s cl),
         levOf s ((swapIdx cl 1 (btMaxIdx s cl)).getD 1 dLit)) := by
      unfold findBtLevel
      rw [if_neg hne]
    obtain ⟨hm1, hmlt⟩ := btMaxIdx_bounds s cl h2
    have h1lt : 1 < cl.length := by omega
    have hget1 : (swapIdx cl 1 (btMaxIdx s cl)).getD 1 dLit = cl.getD (btMaxIdx s cl) dLit :=
      swapIdx_getD_fst cl 1 (btMaxIdx s cl) h1lt hmlt
    rw [hfb]
    refine ⟨?_, rfl, ?_, ?_⟩
    · intro i hi1 hilen
      by_cases hieq1 : i = 1
      · subst hieq1
        exact le_refl _
      · rw [hget1]
        by_cases hieqm : i = btMaxIdx s cl
        · subst hieqm
          rw [swapIdx_getD_snd cl 1 _ hmlt]
          exact btMaxIdx_max s cl h2 1 (le_refl 1) h1lt
        · rw [swapIdx_getD_other cl 1 _ i hieq1 hieqm]
          exact btMaxIdx_max s cl h2 i hi1 hilen
    · exact swapIdx_getD_other cl 1 _ 0 (by omega) (by omega)
    · exact swapIdx_length cl 1 _

/-- A state whose variables 0, 1, 2 sit at levels 3, 1, 2. -/
def sC4 : SState :=
  { sC2 with varData := fun v =>
      if v = 0 then ⟨3, PropBy.nullC⟩
      else if v = 1 then ⟨1, PropBy.nullC⟩
      else ⟨2, PropBy.nullC⟩ }

/-- The clause used by the C4 witness. -/
def clC4 : List Lit := [⟨0, false⟩, ⟨1, false⟩, ⟨2, false⟩]

/-- Witness for the C4 theorem at the concrete clause `clC4`. -/
theorem c4_backjump_level_witness :
    levOf sC4 ((findBtLevel sC4 clC4).1.getD 2 dLit) ≤
      levOf sC4 ((findBtLevel sC4 clC4).1.getD 1 dLit) ∧
    (findBtLevel sC4 clC4).2 = levOf sC4 ((findBtLevel sC4 clC4).1.getD 1 dLit) ∧
    (findBtLevel sC4 clC4).1.getD 0 dLit = clC4.getD 0 dLit := by
  have h := (c4_backjump_level sC4 clC4).2 (by decide)
  exact ⟨h.1 2 (by decide) (by decide), h.2.1, h.2.2.1⟩

/-- One iteration of the minimisation sweep of
`CommandControl::minimiseLearntFurther` (lines 1263-1292): a literal
whose seen bit is already cleared is skipped; otherwise each implication
cache entry `q` of the literal clears `seen[~q]`, and each binary /
tertiary watch of its negation clears the corresponding seen bits (for a
tertiary watch, symmetrically, guarded by the partner's seen bit). -/
def minimStep (s : SState) (sn : Nat → Bool) (l : Lit) : Nat → Bool :=
  if sn l.toInt = false then sn
  else
    let sn1 := (s.implCache l.toInt).foldl (fun a it => seenSet a it.neg.toInt false) sn
    (s.watches l.neg.toInt).foldl
      (fun a w =>
        match w with
        | .bin o _ => seenSet a o.neg.toInt false
        | .tri o1 o2 =>
          let a1 := if a o2.toInt then seenSet a o1.neg.toInt false else a
          if a1 o1.toInt then seenSet a1 o2.neg.toInt false else a1
        | .longW _ _ => a)
      sn1

/-- Phase 1 of `minimiseLearntFurther` (lines 1257-1258): set the seen
bit of every literal of the clause. -/
def minimSeen1 (cl : List Lit) : Nat → Bool :=
  cl.foldl (fun sn l => seenSet sn l.toInt true) (fun _ => false)

/-- The seen state after the full minimisation sweep (phase 2). -/
def minimSeen2 (s : SState) (cl : List Lit) : Nat → Bool :=
  cl.foldl (minimStep s) (minimSeen1 cl)

/-- The compaction loop of `minimiseLearntFurther` (lines 1304-1308):
keep each literal whose seen bit is set, clearing the bit as it goes. -/
def compactLoop : (Nat → Bool) → List Lit → List Lit
| _, [] => []
| sn, l :: rest =>
  if sn l.toInt then l :: compactLoop (seenSet sn l.toInt false) rest
  else compactLoop (seenSet sn l.toInt false) rest

/-- `CommandControl::minimiseLearntFurther(cl, glue)`: mark, sweep,
force the seen bit of position 0 back on (line 1303: "never remove the
0th literal"), and compact.  `glue` is received but (stats aside) never
used, as in the source. -/
def minimiseLearntFurther (s : SState) (cl : List Lit) (glue : Nat) : List Lit :=
  compactLoop (seenSet (minimSeen2 s cl) (cl.headD dLit).toInt true) cl

theorem compactLoop_sublist : ∀ (cl : List Lit) (sn : Nat → Bool),
    (compactLoop sn cl).Sublist cl := by
  intro cl
  induction cl with
  | nil => intro sn; exact List.Sublist.refl _
  | cons l t ih =>
    intro sn
    show (if sn l.toInt then l :: compactLoop (seenSet sn l.toInt false) t
        else compactLoop (seenSet sn l.toInt false) t).Sublist (l :: t)
    split
    · exact List.Sublist.cons₂ l (ih _)
    · exact List.Sublist.cons l (ih _)

theorem seenSet_comm (sn : Nat → Bool) (i j : Nat) (b c : Bool) (h : i ≠ j) :
    seenSet (seenSet sn i b) j c = seenSet (seenSet sn j c) i b := by
  funext x
  unfold seenSet
  by_cases hxj : x = j <;> by_cases hxi : x = i
  · exact absurd (hxi.symm.trans hxj) h
  · have hji : j ≠ i := fun hc => h hc.symm
    simp [hxj, hxi, hji]
  · simp [hxj, hxi, h]
  · simp [hxj, hxi]

theorem compactLoop_irrel : ∀ (cl : List Lit) (sn : Nat → Bool) (i : Nat) (b : Bool),
    (∀ y ∈ cl, y.toInt ≠ i) →
    compactLoop (seenSet sn i b) cl = compactLoop sn cl := by
  intro cl
  induction cl with
  | nil => intro sn i b _; rfl
  | cons l t ih =>
    intro sn i b h
    have hl : l.toInt ≠ i := h l (List.mem_cons_self l t)
    have hset : (seenSet sn i b) l.toInt = sn l.toInt := by
      unfold seenSet
      rw [if_neg hl]
    show (if (seenSet sn i b) l.toInt then
        l :: compactLoop (seenSet (seenSet sn i b) l.toInt false) t
      else compactLoop (seenSet (seenSet sn i b) l.toInt false) t) =
      (if sn l.toInt then l :: compactLoop (seenSet sn l.toInt false) t
       else compactLoop (seenSet sn l.toInt false) t)
    rw [hset, seenSet_comm sn i l.toInt b false (fun hc => hl hc.symm),
      ih (seenSet sn l.toInt false) i b (fun y hy => h y (List.mem_cons_of_mem l hy))]

theorem compactLoop_filter : ∀ (cl : List Lit) (sn : Nat → Bool),
    (cl.map Lit.toInt).Nodup →
    compactLoop sn cl = cl.filter (fun l => sn l.toInt) := by
  intro cl
  induction cl with
  | nil => intro sn _; rfl
  | cons l t ih =>
    intro sn h
    rw [List.map_cons, List.nodup_cons] at h
    have hirrel : compactLoop (seenSet sn l.toInt false) t = compactLoop sn t :=
      compactLoop_irrel t sn l.toInt false
        (fun y hy hc => h.1 (hc ▸ List.mem_map.mpr ⟨y, hy, rfl⟩))
    show (if sn l.toInt then l :: compactLoop (seenSet sn l.toInt false) t
        else compactLoop (seenSet sn l.toInt false) t) = _
    rw [hirrel, ih sn h.2, List.filter_cons]

/-- Claim C8: `minimiseLearntFurther` only removes literals — the result
is a subsequence of the input; for a clause with pairwise-distinct
literal encodings it consists of exactly the literals whose seen bit is
set at compaction time (the head's bit being forced on); and the literal
at position 0 is never removed and stays at position 0. -/
theorem c8_minimise_only_removes (s : SState) (cl : List Lit) (glue : Nat)
    (h0 : cl ≠ []) (hnd : (cl.map Lit.toInt).Nodup) :
    (minimiseLearntFurther s cl glue).Sublist cl ∧
    minimiseLearntFurther s cl glue =
      cl.filter (fun l => seenSet (minimSeen2 s cl) (cl.headD dLit).toInt true l.toInt) ∧
    (minimiseLearntFurther s cl glue).headD dLit = cl.headD dLit ∧
    minimiseLearntFurther s cl glue ≠ [] := by
  refine ⟨compactLoop_sublist cl _, compactLoop_filter cl _ hnd, ?_, ?_⟩
  · obtain ⟨c0, t, rfl⟩ := List.exists_cons_of_ne_nil h0
    show (compactLoop (seenSet (minimSeen2 s (c0 :: t)) c0.toInt true) (c0 :: t)).headD dLit
        = c0
    have hc0 : (seenSet (minimSeen2 s (c0 :: t)) c0.toInt true) c0.toInt = true := by
      unfold seenSet
      rw [if_pos rfl]
    show (if (seenSet (minimSeen2 s (c0 :: t)) c0.toInt true) c0.toInt then
        c0 :: compactLoop _ t else compactLoop _ t).headD dLit = c0
    rw [hc0]
    rfl
  · obtain ⟨c0, t, rfl⟩ := List.exists_cons_of_ne_nil h0
    have hc0 : (seenSet (minimSeen2 s (c0 :: t)) c0.toInt true) c0.toInt = true := by
      unfold seenSet
      rw [if_pos rfl]
    show (if (seenSet (minimSeen2 s (c0 :: t)) c0.toInt true) c0.toInt then
        c0 :: compactLoop _ t else compactLoop _ t) ≠ []
    rw [hc0]
    exact List.cons_ne_nil _ _

/-- Witness for the C8 theorem: clause `[x0, x1]` in a state with a
binary watch that removes `x1`. -/
def sC8 : SState :=
  { sC2 with watches := fun n =>
      if n = (Lit.neg ⟨0, false⟩).toInt then [Watched.bin (Lit.neg ⟨1, false⟩) true] else [] }

/-- The C8 witness applies the theorem to the two-literal clause
`[x0, x1]` at `sC8`. -/
theorem c8_minimise_only_removes_witness :
    (minimiseLearntFurther sC8 [⟨0, false⟩, ⟨1, false⟩] 1).Sublist [⟨0, false⟩, ⟨1, false⟩] ∧
    (minimiseLearntFurther sC8 [⟨0, false⟩, ⟨1, false⟩] 1).headD dLit =
      ([(⟨0, false⟩ : Lit), ⟨1, false⟩]).headD dLit := by
  have h := c8_minimise_only_removes sC8 [⟨0, false⟩, ⟨1, false⟩] 1 (by decide) (by decide)
  exact ⟨h.1, h.2.2.1⟩

/-- Modelled from the spec: `calcNBLevels` (the glue / LBD computation)
is not under `src/`; per the spec it is the number of distinct decision
levels among the clause's literals. -/
def calcNBLevels (s : SState) (cl : List Lit) : Nat :=
  ((cl.map (fun l => (s.varData l.var).level)).dedup).length

/-- The three configuration flags mentioned by the commented-out gating
condition in `CommandControl::analyze` (lines 316-323). -/
structure SolverConf where
  doCache : Bool
  doMinimLearntMore : Bool
  doAlwaysFMinim : Bool
deriving DecidableEq, Repr

/-- The tail of `CommandControl::analyze` after the First-UIP loop and
the seen-clearing (lines 312-349): compute the glue, call
`minimiseLearntFurther` — the configuration / running-average gate
around the call is commented out in the source, so the call is
unconditional and the `conf` and average arguments are never consulted —
recompute the glue on the minimised clause, and find the backtrack
level.  Returns (clause, backtrack level, glue). -/
def analyzePost (conf : SolverConf) (glueHistAvg conflSizeAvg : Nat) (s : SState)
    (out_learnt : List Lit) : List Lit × Nat × Nat :=
  ((findBtLevel s (minimiseLearntFurther s out_learnt (calcNBLevels s out_learnt))).1,
   (findBtLevel s (minimiseLearntFurther s out_learnt (calcNBLevels s out_learnt))).2,
   calcNBLevels s (minimiseLearntFurther s out_learnt (calcNBLevels s out_learnt)))

/-- Claim C3: for every conflict analyzed at level > 0, `analyze` calls
`minimiseLearntFurther` unconditionally — the result does not depend on
`doCache`, `doMinimLearntMore`, `doAlwaysFMinim` or on the glue /
clause-size running averages, and the returned clause really is the
minimised one. -/
theorem c3_minimise_unconditional (c1 c2 : SolverConf) (a1 a2 b1 b2 : Nat)
    (s : SState) (cl : List Lit) :
    analyzePost c1 a1 b1 s cl = analyzePost c2 a2 b2 s cl ∧
    (analyzePost c1 a1 b1 s cl).1 =
      (findBtLevel s (minimiseLearntFurther s cl (calcNBLevels s cl))).1 :=
  ⟨rfl, rfl⟩

/-- The assertion at the entry of `CommandControl::minimiseLearntFurther`
(line 1252): `assert(conf.doCache)`. -/
def minimisePre (conf : SolverConf) : Prop := conf.doCache = true

/-- A configuration with the implication cache disabled. -/
def confNoCache : SolverConf := ⟨false, true, true⟩

/-- Claim C9 — the assertion-failure branch is reachable: with
`doCache = false` the asserted precondition of `minimiseLearntFurther`
fails, yet `analyze` still invokes it (the gate is commented out): on
the clause `[x0, x1]` at `sC8` the call actually removes `x1`, so the
run does not depend on `doCache` at all. -/
theorem c9_assert_reachable :
    ¬ minimisePre confNoCache ∧
    analyzePost confNoCache 0 0 sC8 [⟨0, false⟩, ⟨1, false⟩] =
      analyzePost ⟨true, true, true⟩ 0 0 sC8 [⟨0, false⟩, ⟨1, false⟩] ∧
    minimiseLearntFurther sC8 [⟨0, false⟩, ⟨1, false⟩]
        (calcNBLevels sC8 [⟨0, false⟩, ⟨1, false⟩]) = [⟨0, false⟩] ∧
    (analyzePost confNoCache 0 0 sC8 [⟨0, false⟩, ⟨1, false⟩]).1 = [⟨0, false⟩] := by
  refine ⟨?_, rfl, ?_, ?_⟩
  · intro hc
    exact absurd (show confNoCache.doCache = true from hc) (by decide)
  · decide
  · decide

/-- The marking loop of `Simplifier::subset` (lines 268-269): set
`seen[B[i].toInt()] = 1` for every literal of `B`. -/
def subsetMarkB (B : List Lit) (sn : Nat → Bool) : Nat → Bool :=
  B.foldl (fun a b => seenSet a b.toInt true) sn

/-- The clearing loop of `Simplifier::subset` (lines 272-273 and
277-278): set `seen[B[i].toInt()] = 0` for every literal of `B`. -/
def subsetClearB (B : List Lit) (sn : Nat → Bool) : Nat → Bool :=
  B.foldl (fun a b => seenSet a b.toInt false) sn

/-- The scanning loop of `Simplifier::subset` (lines 270-276): at the
first literal of `A` whose seen bit is unset, clear `B`'s marks and
return false; if the scan finishes, clear `B`'s marks and return
true. -/
def subsetLoopA (B : List Lit) : List Lit → (Nat → Bool) → Bool × (Nat → Bool)
| [], sn => (true, subsetClearB B sn)
| a :: rest, sn =>
  if sn a.toInt = false then (false, subsetClearB B sn)
  else subsetLoopA B rest sn

/-- `Simplifier::subset(A, B, seen)` (Simplifier.h lines 265-280): mark
`B`, scan `A`, clear `B`; returns the verdict together with the final
seen vector. -/
def subset (A B : List Lit) (sn : Nat → Bool) : Bool × (Nat → Bool) :=
  subsetLoopA B A (subsetMarkB B sn)

theorem subsetMarkB_apply : ∀ (B : List Lit) (sn : Nat → Bool) (n : Nat),
    subsetMarkB B sn n = (sn n || B.any (fun b => b.toInt = n)) := by
  intro B
  induction B with
  | nil => intro sn n; simp [subsetMarkB]
  | cons b t ih =>
    intro sn n
    show subsetMarkB t (seenSet sn b.toInt true) n = _
    rw [ih]
    unfold seenSet
    by_cases hn : n = b.toInt
    · subst hn
      simp
    · have hnb : b.toInt ≠ n := fun hc => hn hc.symm
      simp [hn, hnb]

theorem subsetClearB_apply : ∀ (B : List Lit) (sn : Nat → Bool) (n : Nat),
    subsetClearB B sn n = if B.any (fun b => b.toInt = n) then false else sn n := by
  intro B
  induction B with
  | nil => intro sn n; simp [subsetClearB]
  | cons b t ih =>
    intro sn n
    show subsetClearB t (seenSet sn b.toInt false) n = _
    rw [ih]
    unfold seenSet
    by_cases hn : n = b.toInt
    · subst hn
      simp
    · have hnb : b.toInt ≠ n := fun hc => hn hc.symm
      simp [hn, hnb]

theorem subsetLoopA_spec (B : List Lit) : ∀ (A : List Lit) (sn : Nat → Bool),
    subsetLoopA B A sn = (A.all (fun a => sn a.toInt), subsetClearB B sn) := by
  intro A
  induction A with
  | nil => intro sn; rfl
  | cons a t ih =>
    intro sn
    show (if sn a.toInt = false then (false, subsetClearB B sn)
        else subsetLoopA B t sn) = _
    cases hc : sn a.toInt
    · simp [hc]
    · rw [if_neg (by simp [hc]), ih]
      simp [hc]

theorem toInt_inj : ∀ (l1 l2 : Lit), l1.toInt = l2.toInt → l1 = l2 := by
  intro l1 l2 h
  obtain ⟨v1, s1⟩ := l1
  obtain ⟨v2, s2⟩ := l2
  unfold Lit.toInt at h
  simp only at h
  cases s1 <;> cases s2 <;> simp at h ⊢ <;> omega

/-- Claim C10: on a seen vector that is all-zero, `Simplifier::subset`
returns true if and only if every literal of `A` occurs in `B`, and the
seen vector it hands back is all-zero again. -/
theorem c10_subset (A B : List Lit) (sn : Nat → Bool) (h : ∀ n, sn n = false) :
    ((subset A B sn).1 = true ↔ ∀ a ∈ A, a ∈ B) ∧
    (∀ n, (subset A B sn).2 n = false) := by
  unfold subset
  rw [subsetLoopA_spec]
  constructor
  · rw [List.all_eq_true]
    constructor
    · intro hall a ha
      have := hall a ha
      rw [subsetMarkB_apply, h a.toInt] at this
      simp only [Bool.false_or] at this
      rw [List.any_eq_true] at this
      obtain ⟨b, hb, hba⟩ := this
      have hba2 : b.toInt = a.toInt := by simpa using hba
      exact (toInt_inj b a hba2) ▸ hb
    · intro hall a ha
      rw [subsetMarkB_apply, h a.toInt]
      simp only [Bool.false_or]
      rw [List.any_eq_true]
      exact ⟨a, hall a ha, by simp⟩
  · intro n
    show subsetClearB B (subsetMarkB B sn) n = false
    rw [subsetClearB_apply]
    by_cases hb : B.any (fun b => b.toInt = n) = true
    · rw [if_pos hb]
    · rw [if_neg hb, subsetMarkB_apply, h n]
      simpa using hb

/-- The all-zero seen vector used by the C10 witness. -/
def snAll0 : Nat → Bool := fun _ => false

/-- Witness for the C10 theorem on concrete lists. -/
theorem c10_subset_witness :
    ((subset [(⟨0, false⟩ : Lit)] [⟨0, false⟩, ⟨1, true⟩] snAll0).1 = true ↔
       ∀ a ∈ [(⟨0, false⟩ : Lit)], a ∈ [(⟨0, false⟩ : Lit), ⟨1, true⟩]) ∧
    (∀ n, (subset [(⟨0, false⟩ : Lit)] [⟨0, false⟩, ⟨1, true⟩] snAll0).2 n = false) :=
  c10_subset [⟨0, false⟩] [⟨0, false⟩, ⟨1, true⟩] snAll0 (fun _ => rfl)
